import Mathlib

/-!
Verification of the document-search core of the repository
(`src/docSearchLib.ts`): text normalization and tokenization,
tabular/narrative chunking, stable chunk identity, index building and
token/substring scoring with stable top-K ranking.

Strings are modelled as lists of Unicode code points (`List Nat`), matching
the JavaScript string operations of the source on the modelled character
repertoire: ASCII, the Latin-1 letters listed in the tables below (accented
letters with their NFKD decompositions, plus Ø/ø, Ý/ý, Þ/þ), a few Greek and
Cyrillic letters, and the compatibility letters ℂ, ℕ, ℝ, whose NFKD
decompositions are the uppercase ASCII letters C, N, R — the cases in which
decomposition, which the source applies after lowercasing, reintroduces
uppercase.  `String.prototype.toLowerCase`,
`String.prototype.normalize('NFKD')` and the regex character classes `\s`,
`\p{L}`, `\p{N}`, `[̀-ͯ]` are modelled by `jsToLower`, `nfkdChar`,
`jsWhitespace`, `letterOrNum` and `combining` on that repertoire, with the
data taken from the Unicode tables.
-/

/-- Code points of a string literal, for readable concrete inputs. -/
def str (s : String) : List Nat := s.data.map Char.toNat

/-- Combining diacritical marks, the regex class `[̀-ͯ]` of
`normalizeForSearch`. -/
def combining (n : Nat) : Bool := 768 ≤ n && n ≤ 879

/-- The regex class `\s` (JavaScript whitespace), restricted to the modelled
repertoire: TAB, LF, VT, FF, CR, SPACE, NBSP. -/
def jsWhitespace (n : Nat) : Bool :=
  n == 9 || n == 10 || n == 11 || n == 12 || n == 13 || n == 32 || n == 160

/-- ASCII uppercase letters. -/
def isUpperAscii (n : Nat) : Bool := 65 ≤ n && n ≤ 90

/-- ASCII letters. -/
def asciiLetter (n : Nat) : Bool := (65 ≤ n && n ≤ 90) || (97 ≤ n && n ≤ 122)

/-- ASCII digits. -/
def asciiDigit (n : Nat) : Bool := 48 ≤ n && n ≤ 57

/-- Lowercase mapping of the non-ASCII letters of the modelled repertoire,
as performed by `String.prototype.toLowerCase`: the Latin-1 uppercase letters
(including Ø, Ý, Þ), and a few Greek (Α, Β, Γ) and Cyrillic (А, Б) capitals.
The compatibility letters ℂ, ℕ, ℝ have no lowercase mapping and are absent,
as in the real `toLowerCase`. -/
def lowerTable : List (Nat × Nat) :=
  [(192, 224), (193, 225), (194, 226), (195, 227), (196, 228), (197, 229),
   (199, 231), (200, 232), (201, 233), (202, 234), (203, 235), (204, 236),
   (205, 237), (206, 238), (207, 239), (209, 241), (210, 242), (211, 243),
   (212, 244), (213, 245), (214, 246), (217, 249), (218, 250), (219, 251),
   (220, 252), (216, 248), (221, 253), (222, 254), (913, 945), (914, 946),
   (915, 947), (1040, 1072), (1041, 1073)]

/-- NFKD decompositions of the modelled repertoire: accented letters
decompose to their base letter followed by a combining mark, and the
compatibility letters ℂ (U+2102), ℕ (U+2115), ℝ (U+211D) decompose to the
uppercase ASCII letters C, N, R.  Ø/ø, Þ/þ and the Greek/Cyrillic letters
have no decomposition, as in real NFKD. -/
def decompTable : List (Nat × List Nat) :=
  [(224, [97, 768]), (225, [97, 769]), (226, [97, 770]), (227, [97, 771]),
   (228, [97, 776]), (229, [97, 778]), (231, [99, 807]), (232, [101, 768]),
   (233, [101, 769]), (234, [101, 770]), (235, [101, 776]), (236, [105, 768]),
   (237, [105, 769]), (238, [105, 770]), (239, [105, 776]), (241, [110, 771]),
   (242, [111, 768]), (243, [111, 769]), (244, [111, 770]), (245, [111, 771]),
   (246, [111, 776]), (249, [117, 768]), (250, [117, 769]), (251, [117, 770]),
   (252, [117, 776]),
   (192, [65, 768]), (193, [65, 769]), (194, [65, 770]), (195, [65, 771]),
   (196, [65, 776]), (197, [65, 778]), (199, [67, 807]), (200, [69, 768]),
   (201, [69, 769]), (202, [69, 770]), (203, [69, 776]), (204, [73, 768]),
   (205, [73, 769]), (206, [73, 770]), (207, [73, 776]), (209, [78, 771]),
   (210, [79, 768]), (211, [79, 769]), (212, [79, 770]), (213, [79, 771]),
   (214, [79, 776]), (217, [85, 768]), (218, [85, 769]), (219, [85, 770]),
   (220, [85, 776]), (221, [89, 769]), (253, [121, 769]),
   (8450, [67]), (8469, [78]), (8477, [82])]

/-- `String.prototype.toLowerCase` on one code point of the modelled
repertoire. -/
def jsToLower (n : Nat) : Nat :=
  if isUpperAscii n then n + 32
  else match List.lookup n lowerTable with
    | some m => m
    | none => n

/-- `String.prototype.normalize('NFKD')` on one code point of the modelled
repertoire. -/
def nfkdChar (n : Nat) : List Nat :=
  match List.lookup n decompTable with
  | some l => l
  | none => [n]

/-- Letters of the modelled repertoire that appear in neither table: ø, þ
and the lowercase Greek and Cyrillic letters (no decomposition, fixed by
lowercasing). -/
def letterList : List Nat := [248, 254, 945, 946, 947, 1072, 1073]

/-- The regex class `[\p{L}\p{N}]` (Unicode letters and numbers) on the
modelled repertoire. -/
def letterOrNum (n : Nat) : Bool :=
  asciiLetter n || asciiDigit n || letterList.contains n ||
    (List.lookup n decompTable).isSome || (List.lookup n lowerTable).isSome

/-- Lowercasing followed by NFKD decomposition: the first two steps of
`normalizeForSearch`. -/
def lowerNfkd (s : List Nat) : List Nat := (s.map jsToLower).flatMap nfkdChar

/-- Removal of the combining diacritical marks:
`.replace(/[̀-ͯ]/g, '')`. -/
def stripMarks (l : List Nat) : List Nat := l.filter (fun c => !combining c)

/-- Worker for `punctToSpace`; the flag records whether the previous
character belonged to a run being replaced. -/
def punctAux : Bool → List Nat → List Nat
  | _, [] => []
  | prevBad, c :: rest =>
    if letterOrNum c || jsWhitespace c then c :: punctAux false rest
    else if prevBad then punctAux true rest
    else 32 :: punctAux true rest

/-- Replacement of every maximal run of characters that are neither Unicode
letters/numbers nor whitespace by a single space:
`.replace(/[^\p{L}\p{N}\s]+/gu, ' ')`. -/
def punctToSpace (l : List Nat) : List Nat := punctAux false l

/-- Worker for `collapseWs`; the flag records whether the previous character
belonged to a whitespace run being collapsed. -/
def wsAux : Bool → List Nat → List Nat
  | _, [] => []
  | prevWs, c :: rest =>
    if jsWhitespace c then
      if prevWs then wsAux true rest else 32 :: wsAux true rest
    else c :: wsAux false rest

/-- Collapse of every whitespace run to a single space:
`.replace(/\s+/g, ' ')`. -/
def collapseWs (l : List Nat) : List Nat := wsAux false l

/-- `String.prototype.trim()`: remove leading and trailing whitespace. -/
def trimWs (l : List Nat) : List Nat :=
  ((l.dropWhile jsWhitespace).reverse.dropWhile jsWhitespace).reverse

/-- `normalizeForSearch` of `docSearchLib.ts`: lowercase, NFKD, strip
diacritics, punctuation runs to spaces, collapse whitespace, trim. -/
def normalizeForSearch (s : List Nat) : List Nat :=
  trimWs (collapseWs (punctToSpace (stripMarks (lowerNfkd s))))

/-- Worker for `splitOnC`: split at every occurrence of the separator, as
`String.prototype.split` with a single-character separator. -/
def splitOnCAux (sep : Nat) : List Nat → List Nat → List (List Nat)
  | acc, [] => [acc.reverse]
  | acc, c :: rest =>
    if c == sep then acc.reverse :: splitOnCAux sep [] rest
    else splitOnCAux sep (c :: acc) rest

/-- `String.prototype.split` with a single-character separator. -/
def splitOnC (sep : Nat) (l : List Nat) : List (List Nat) := splitOnCAux sep [] l

/-- `tokenize` of `docSearchLib.ts`: split the normalized form on spaces and
keep the tokens of length at least 2. -/
def tokenize (s : List Nat) : List (List Nat) :=
  (splitOnC 32 (normalizeForSearch s)).filter (fun t => 2 ≤ t.length)

/-- Normalization of CRLF line endings: `.replace(/\r\n/g, '\n')`. -/
def replaceCRLF : List Nat → List Nat
  | 13 :: 10 :: rest => 10 :: replaceCRLF rest
  | c :: rest => c :: replaceCRLF rest
  | [] => []

/-- The lines of a document: `txt.replace(/\r\n/g, '\n').split('\n')`. -/
def docLines (txt : List Nat) : List (List Nat) := splitOnC 10 (replaceCRLF txt)

/-- `path.basename`: the part of a path after the last separator. -/
def basename (p : List Nat) : List Nat := (p.reverse.takeWhile (fun c => !(c == 47))).reverse

/-- The document title: the trimmed first non-blank line, defaulting to the
base filename when every line is blank. -/
def docTitle (txt sourceFile : List Nat) : List Nat :=
  match (docLines txt).find? (fun l => !(trimWs l).isEmpty) with
  | some l => trimWs l
  | none => basename sourceFile

/-- The index of the first body line: one past the title line, or 0 when no
title line was found (the source's `startIdx` stays at its initial value). -/
def docStartIdx (txt : List Nat) : Nat :=
  match (docLines txt).findIdx? (fun l => !(trimWs l).isEmpty) with
  | some i => i + 1
  | none => 0

/-- `Array.prototype.join('\n')`. -/
def joinNl : List (List Nat) → List Nat
  | [] => []
  | [p] => p
  | p :: rest => p ++ 10 :: joinNl rest

/-- `Array.prototype.join(' ')`. -/
def joinSpace : List (List Nat) → List Nat
  | [] => []
  | [p] => p
  | p :: rest => p ++ 32 :: joinSpace rest

/-- The document body: the lines after the title line, joined and trimmed. -/
def docBody (txt : List Nat) : List Nat :=
  trimWs (joinNl ((docLines txt).drop (docStartIdx txt)))

/-- Tabular-shape detection: some body line contains the pipe character. -/
def hasPipeTable (body : List Nat) : Bool :=
  (splitOnC 10 body).any (fun l => l.contains 124)

/-- `String.prototype.startsWith` with a single-character argument. -/
def headIs (l : List Nat) (n : Nat) : Bool :=
  match l with
  | [] => false
  | c :: _ => c == n

/-- The trimmed, non-blank, non-comment lines of a tabular body. -/
def tableLines (body : List Nat) : List (List Nat) :=
  ((splitOnC 10 body).map trimWs).filter (fun l => !l.isEmpty && !headIs l 35)

/-- The table rows: the kept lines that contain a pipe. -/
def tableRows (body : List Nat) : List (List Nat) :=
  (tableLines body).filter (fun l => l.contains 124)

/-- One synthesized sentence-like passage per table row, from the first three
pipe-separated columns (`service`, `price`, `notes`); empty or missing
columns are skipped. -/
def rowToPassage (row : List Nat) : List Nat :=
  let cols := (splitOnC 124 row).map trimWs
  let service := cols.getD 0 []
  let price := cols.getD 1 []
  let notes := cols.getD 2 []
  joinSpace
    ((if service.isEmpty then [] else [str "Service: " ++ service ++ str "."]) ++
     (if price.isEmpty then [] else [str "Price: " ++ price ++ str "."]) ++
     (if notes.isEmpty then [] else [str "Notes: " ++ notes ++ str "."]))

/-- `pipeTableToPassages` of `docSearchLib.ts`. -/
def pipeTableToPassages (body : List Nat) : List (List Nat) :=
  (tableRows body).map rowToPassage

/-- Worker for the paragraph split on `/\n\s*\n/`.  The optional state is
live while scanning a whitespace run that began with a newline: it holds the
run up to its last newline (reversed), the run after its last newline
(reversed), and whether a second newline has been seen (the separator is
confirmed). -/
def paraAux : List Nat → Option (List Nat × List Nat × Bool) → List Nat → List (List Nat)
  | acc, none, [] => [acc.reverse]
  | acc, some (bef, aft, conf), [] =>
    if conf then [acc.reverse, aft.reverse] else [(aft ++ bef ++ acc).reverse]
  | acc, none, c :: rest =>
    if c == 10 then paraAux acc (some ([10], [], false)) rest
    else paraAux (c :: acc) none rest
  | acc, some (bef, aft, conf), c :: rest =>
    if c == 10 then paraAux acc (some (10 :: (aft ++ bef), [], true)) rest
    else if jsWhitespace c then paraAux acc (some (bef, c :: aft, conf)) rest
    else if conf then acc.reverse :: paraAux (c :: aft) none rest
    else paraAux (c :: (aft ++ bef ++ acc)) none rest

/-- Split on blank-line boundaries: `body.split(/\n\s*\n/g)`. -/
def paraSplit (body : List Nat) : List (List Nat) := paraAux [] none body

/-- Flush of a pending whitespace run for `collapseNl`: a run containing a
newline becomes one space, any other run is kept. -/
def flushWs (pendRev : List Nat) (sawNl : Bool) : List Nat :=
  if pendRev.isEmpty then [] else if sawNl then [32] else pendRev.reverse

/-- Worker for `collapseNl`. -/
def collapseNlAux : List Nat → Bool → List Nat → List Nat
  | pendRev, sawNl, [] => flushWs pendRev sawNl
  | pendRev, sawNl, c :: rest =>
    if jsWhitespace c then collapseNlAux (c :: pendRev) (sawNl || c == 10) rest
    else flushWs pendRev sawNl ++ c :: collapseNlAux [] false rest

/-- Collapse of internal newlines within a paragraph:
`.replace(/\s*\n\s*/g, ' ')`. -/
def collapseNl (l : List Nat) : List Nat := collapseNlAux [] false l

/-- `paragraphPassages` of `docSearchLib.ts`: split on blank lines, trim,
drop empties, collapse internal newlines. -/
def paragraphPassages (body : List Nat) : List (List Nat) :=
  ((((paraSplit body).map trimWs).filter (fun p => !p.isEmpty)).map collapseNl)

/-- The raw passages of a body: tabular or narrative, a whole-document
decision. -/
def rawPassages (body : List Nat) : List (List Nat) :=
  if hasPipeTable body then pipeTableToPassages body else paragraphPassages body

/-- Sentence-final punctuation: `.`, `!` or `?`. -/
def isSentEnd (n : Nat) : Bool := n == 46 || n == 33 || n == 63

/-- Whether a list starts with a whitespace character. -/
def headIsWs (l : List Nat) : Bool :=
  match l with
  | [] => false
  | c :: _ => jsWhitespace c

/-- Worker for the sentence split on `/(?<=[.!?])\s+/`: cut after sentence
punctuation followed by whitespace, consuming the whitespace run.  The flag
is live while consuming the separator's whitespace run. -/
def splitSentAux : Bool → List Nat → List Nat → List (List Nat)
  | _, acc, [] => [acc.reverse]
  | skipping, acc, c :: rest =>
    if skipping && jsWhitespace c then splitSentAux true acc rest
    else if isSentEnd c && headIsWs rest then
      (c :: acc).reverse :: splitSentAux true [] rest
    else splitSentAux false (c :: acc) rest

/-- Sentence split: `p.split(/(?<=[.!?])\s+/)`. -/
def splitSentences (p : List Nat) : List (List Nat) := splitSentAux false [] p

/-- The sentence-accumulation loop of the length enforcement: greedily fill a
buffer with sentences while the trimmed candidate stays within the limit,
flushing the trimmed buffer when it would overflow. -/
def chunkLoop (maxC : Nat) : List (List Nat) → List Nat → List (List Nat)
  | [], buf => if buf.isEmpty then [] else [trimWs buf]
  | s :: ss, buf =>
    if (trimWs (buf ++ 32 :: s)).length ≤ maxC then
      chunkLoop maxC ss (if buf.isEmpty then s else buf ++ 32 :: s)
    else
      (if buf.isEmpty then [] else [trimWs buf]) ++ chunkLoop maxC ss s

/-- Length enforcement over the raw passages: passages within the limit pass
through, longer ones are re-split at sentence boundaries. -/
def enforceMax (maxC : Nat) (ps : List (List Nat)) : List (List Nat) :=
  ps.flatMap (fun p => if p.length ≤ maxC then [p] else chunkLoop maxC (splitSentences p) [])

/-- The final passages of a document. -/
def docPassages (txt : List Nat) (maxC : Nat) : List (List Nat) :=
  enforceMax maxC (rawPassages (docBody txt))

/-- Worker for `natDecimal`; the fuel dominates the number of digits. -/
def natDecimalAux : Nat → Nat → List Nat
  | 0, _ => []
  | fuel + 1, n =>
    if n < 10 then [48 + n] else natDecimalAux fuel (n / 10) ++ [48 + n % 10]

/-- Decimal representation of a natural number as ASCII code points, as the
template literal interpolation of the source. -/
def natDecimal (n : Nat) : List Nat := natDecimalAux (n + 1) n

/-- One retrievable passage, `Chunk` of `docSearchLib.ts`. -/
structure Chunk where
  tenantId : List Nat
  docId : List Nat
  chunkId : List Nat
  sourceFile : List Nat
  title : List Nat
  text : List Nat
  tokens : List (List Nat)
deriving DecidableEq

/-- `KnowledgeIndex` of `docSearchLib.ts`. -/
structure KnowledgeIndex where
  tenantId : List Nat
  chunks : List Chunk
deriving DecidableEq

/-- `ParseOptions` of `docSearchLib.ts`; the source's `maxChunkChars`
default of 1800 is `defaultMaxChunkChars` and is supplied by callers that
omit the field. -/
structure ParseOptions where
  tenantId : List Nat
  sourceFile : List Nat
  maxChunkChars : Nat
deriving DecidableEq

/-- The source's default for `maxChunkChars`. -/
def defaultMaxChunkChars : Nat := 1800

/-- The chunk built for the passage at a given zero-based position.
`stableId` (a truncated SHA-1, from `node:crypto`) is modelled by the
abstract `hash` parameter; its output for the triple is `docHash`. -/
def mkChunk (tenantId docId docHash sourceBase title : List Nat) (idx : Nat)
    (text : List Nat) : Chunk :=
  ⟨tenantId, docId, docHash ++ 35 :: natDecimal idx, sourceBase, title,
   trimWs text, tokenize text⟩

/-- `parseTxtToChunks` of `docSearchLib.ts`.  The truncated content hash
`stableId([tenantId, sourceFile, title])` is the parameter `hash` applied to
that triple. -/
def parseTxtToChunks (hash : List (List Nat) → List Nat) (txt : List Nat)
    (opts : ParseOptions) : List Chunk :=
  ((docPassages txt opts.maxChunkChars).enum.map (fun p =>
      mkChunk opts.tenantId (opts.tenantId ++ 58 :: basename opts.sourceFile)
        (hash [opts.tenantId, opts.sourceFile, docTitle txt opts.sourceFile])
        (basename opts.sourceFile) (docTitle txt opts.sourceFile) p.1 p.2)).filter
    (fun c => !c.text.isEmpty)

/-- `loadTenantTxtKnowledge` of `docSearchLib.ts`.  The directory listing is
modelled by the `files` argument, a list of (file name, file content) pairs;
kept files are those whose lowercased name ends in `.txt`, and each is parsed
with `sourceFile` set to the joined path. -/
def loadTenantTxtKnowledge (hash : List (List Nat) → List Nat)
    (tenantId folderPath : List Nat) (files : List (List Nat × List Nat)) :
    KnowledgeIndex :=
  ⟨tenantId,
   (files.filter (fun f => List.isSuffixOf (str ".txt") (f.1.map jsToLower))).flatMap
     (fun f => parseTxtToChunks hash f.2 ⟨tenantId, folderPath ++ 47 :: f.1, defaultMaxChunkChars⟩)⟩

/-- One search hit, `SearchResult` of `docSearchLib.ts`. -/
structure SearchResult where
  chunkId : List Nat
  title : List Nat
  sourceFile : List Nat
  text : List Nat
  score : Nat
deriving DecidableEq

/-- Whether `pre` is a leading segment of `l`. -/
def startsWithB : List Nat → List Nat → Bool
  | _, [] => true
  | [], _ :: _ => false
  | a :: as, b :: bs => a == b && startsWithB as bs

/-- `String.prototype.includes`: whether `needle` occurs contiguously in
`hay`. -/
def hasSub : List Nat → List Nat → Bool
  | hay, needle =>
    match hay with
    | [] => needle.isEmpty
    | _ :: rest => startsWithB hay needle || hasSub rest needle

/-- The score the search loop computes for one chunk: +2 per query token
occurrence found in the chunk's token set, +1 per query token occurrence
found in the title's token set, +4 for a normalized substring match. -/
def chunkScore (qTokens : List (List Nat)) (qNorm : List Nat) (c : Chunk) : Nat :=
  let s1 := qTokens.foldl (fun sc t => if c.tokens.contains t then sc + 2 else sc) 0
  let s2 := qTokens.foldl (fun sc t => if (tokenize c.title).contains t then sc + 1 else sc) s1
  if hasSub (normalizeForSearch c.text) qNorm then s2 + 4 else s2

/-- The scored results in index order, keeping only strictly positive
scores. -/
def scoredResults (index : KnowledgeIndex) (qTokens : List (List Nat))
    (qNorm : List Nat) : List SearchResult :=
  index.chunks.filterMap (fun c =>
    if 0 < chunkScore qTokens qNorm c then
      some ⟨c.chunkId, c.title, c.sourceFile, c.text, chunkScore qTokens qNorm c⟩
    else none)

/-- Stable insertion for the descending sort by score: a result is placed
before the first earlier-sorted result of less-or-equal score, so equal
scores keep their original relative order. -/
def insertDesc (r : SearchResult) : List SearchResult → List SearchResult
  | [] => [r]
  | s :: rest => if s.score ≤ r.score then r :: s :: rest else s :: insertDesc r rest

/-- The stable descending sort by score, modelling
`results.sort((a, b) => b.score - a.score)` (`Array.prototype.sort` is
stable). -/
def sortByScoreDesc (l : List SearchResult) : List SearchResult :=
  l.foldr insertDesc []

/-- The source's default for `topK`. -/
def defaultTopK : Nat := 3

/-- `searchDocs` of `docSearchLib.ts`: tokenize the query, return nothing
for a token-free query, otherwise score every chunk, keep positive scores,
sort by descending score (stable) and take the first `topK`. -/
def searchDocs (index : KnowledgeIndex) (query : List Nat) (topK : Nat) :
    List SearchResult :=
  if (tokenize query).length = 0 then []
  else
    (sortByScoreDesc
      (scoredResults index (tokenize query) (normalizeForSearch query))).take topK

/-! ### Generic helper lemmas -/

theorem lookup_mem {β : Type} {T : List (Nat × β)} {a : Nat} {b : β}
    (h : List.lookup a T = some b) : (a, b) ∈ T := by
  induction T with
  | nil => simp [List.lookup] at h
  | cons e rest ih =>
    obtain ⟨k, v⟩ := e
    rw [List.lookup] at h
    by_cases hk : a = k
    · subst hk
      simp at h
      simp [h]
    · simp [Ne.symm hk, beq_false_of_ne hk] at h
      exact List.mem_cons_of_mem _ (ih h)

theorem lookup_none {β : Type} {T : List (Nat × β)} {n : Nat}
    (h : ∀ e ∈ T, e.1 ≠ n) : List.lookup n T = none := by
  induction T with
  | nil => rfl
  | cons e rest ih =>
    obtain ⟨k, v⟩ := e
    rw [List.lookup]
    have hk : k ≠ n := h (k, v) (List.mem_cons_self _ _)
    have : (n == k) = false := beq_false_of_ne (Ne.symm hk)
    rw [this]
    exact ih (fun e he => h e (List.mem_cons_of_mem _ he))

/-- Decoder of `natDecimal`, used to prove it injective. -/
def decodeDecimal (l : List Nat) : Nat := l.foldl (fun a d => a * 10 + (d - 48)) 0

theorem decode_natDecimalAux : ∀ (fuel n : Nat), n < fuel →
    decodeDecimal (natDecimalAux fuel n) = n := by
  intro fuel
  induction fuel with
  | zero => omega
  | succ f ih =>
    intro n hn
    rw [natDecimalAux]
    by_cases h10 : n < 10
    · simp [h10, decodeDecimal]
    · have hdiv : n / 10 < n := Nat.div_lt_self (by omega) (by omega)
      have : n / 10 < f := by omega
      simp only [h10, if_false]
      unfold decodeDecimal
      rw [List.foldl_append]
      have := ih (n / 10) this
      unfold decodeDecimal at this
      rw [this]
      simp only [List.foldl]
      have : 48 + n % 10 - 48 = n % 10 := by omega
      rw [this]
      omega

theorem natDecimal_inj {m n : Nat} (h : natDecimal m = natDecimal n) : m = n := by
  have hm := decode_natDecimalAux (m + 1) m (by omega)
  have hn := decode_natDecimalAux (n + 1) n (by omega)
  unfold natDecimal at h
  rw [h] at hm
  rw [hn] at hm
  omega

/-! ### Character-level facts about the normalizer -/

/-- A code point the second normalization pass leaves unchanged in its first
three stages. -/
def selfNorm (n : Nat) : Prop :=
  jsToLower n = n ∧ nfkdChar n = [n] ∧ combining n = false

instance (n : Nat) : Decidable (selfNorm n) := by unfold selfNorm; infer_instance

theorem decomp_keys_high : ∀ e ∈ decompTable, 192 ≤ e.1 := by decide

theorem lower_keys_high : ∀ e ∈ lowerTable, 192 ≤ e.1 := by decide

theorem lookup_decomp_low {n : Nat} (h : n < 192) :
    List.lookup n decompTable = none :=
  lookup_none (fun e he hn => by have := decomp_keys_high e he; omega)

theorem lookup_lower_low {n : Nat} (h : n < 192) :
    List.lookup n lowerTable = none :=
  lookup_none (fun e he hn => by have := lower_keys_high e he; omega)

theorem lower_table_stable :
    ∀ e ∈ lowerTable, ∀ d ∈ nfkdChar e.2,
      combining d = false → letterOrNum d = true → nfkdChar d = [d] := by decide

theorem decomp_stable :
    ∀ e ∈ decompTable, List.lookup e.1 lowerTable = none →
      ∀ d ∈ e.2, combining d = false → letterOrNum d = true →
        nfkdChar d = [d] := by decide

/-- A surviving output character of the normalizer's decomposition stage has
no decomposition of its own (NFKD output is NFKD-normalized).  It need NOT
be fixed by lowercasing: the compatibility letters ℂ, ℕ, ℝ survive
`toLowerCase` unchanged and then decompose to uppercase C, N, R. -/
theorem nfkd_lower_stable {x d : Nat} (hd : d ∈ nfkdChar (jsToLower x))
    (hc : combining d = false) (hl : letterOrNum d = true) :
    nfkdChar d = [d] := by
  by_cases hux : isUpperAscii x = true
  · have hx : 65 ≤ x ∧ x ≤ 90 := by
      simpa [isUpperAscii] using hux
    rw [jsToLower, if_pos hux] at hd
    rw [nfkdChar, lookup_decomp_low (by omega)] at hd
    simp at hd
    subst hd
    rw [nfkdChar, lookup_decomp_low (by omega)]
  · have hux' : isUpperAscii x = false := by simpa using hux
    rw [jsToLower, if_neg (by simp [hux'])] at hd
    cases hlk : List.lookup x lowerTable with
    | some m =>
      rw [hlk] at hd
      exact lower_table_stable (x, m) (lookup_mem hlk) d hd hc hl
    | none =>
      rw [hlk] at hd
      cases hdk : List.lookup x decompTable with
      | some dec =>
        rw [nfkdChar, hdk] at hd
        exact decomp_stable (x, dec) (lookup_mem hdk) hlk d hd hc hl
      | none =>
        rw [nfkdChar, hdk] at hd
        simp at hd
        subst hd
        rw [nfkdChar, hdk]

theorem ws_selfNorm {n : Nat} (h : jsWhitespace n = true) : selfNorm n := by
  simp [jsWhitespace] at h
  rcases h with (((((h | h) | h) | h) | h) | h) | h <;> subst h <;> decide

/-! ### Structure of the normalizer's output -/

/-- No two adjacent whitespace characters. -/
def noWsPair (a b : Nat) : Prop := ¬(jsWhitespace a = true ∧ jsWhitespace b = true)

theorem mem_punctAux {c : Nat} : ∀ {b : Bool} {l : List Nat}, c ∈ punctAux b l →
    c = 32 ∨ (c ∈ l ∧ (letterOrNum c || jsWhitespace c) = true) := by
  intro b l
  induction l generalizing b with
  | nil => intro h; simp [punctAux] at h
  | cons a rest ih =>
    intro h
    rw [punctAux] at h
    by_cases hg : (letterOrNum a || jsWhitespace a) = true
    · rw [if_pos hg] at h
      rcases List.mem_cons.mp h with h | h
      · subst h; exact Or.inr ⟨List.mem_cons_self _ _, hg⟩
      · rcases ih h with h | ⟨h1, h2⟩
        · exact Or.inl h
        · exact Or.inr ⟨List.mem_cons_of_mem _ h1, h2⟩
    · rw [if_neg hg] at h
      by_cases hb : b
      · subst hb
        rw [if_pos rfl] at h
        rcases ih h with h | ⟨h1, h2⟩
        · exact Or.inl h
        · exact Or.inr ⟨List.mem_cons_of_mem _ h1, h2⟩
      · simp only [hb, if_false] at h
        rcases List.mem_cons.mp h with h | h
        · exact Or.inl h
        · rcases ih h with h | ⟨h1, h2⟩
          · exact Or.inl h
          · exact Or.inr ⟨List.mem_cons_of_mem _ h1, h2⟩

theorem mem_wsAux {c : Nat} : ∀ {b : Bool} {l : List Nat}, c ∈ wsAux b l →
    c = 32 ∨ (c ∈ l ∧ jsWhitespace c = false) := by
  intro b l
  induction l generalizing b with
  | nil => intro h; simp [wsAux] at h
  | cons a rest ih =>
    intro h
    rw [wsAux] at h
    by_cases hw : jsWhitespace a = true
    · rw [if_pos hw] at h
      by_cases hb : b
      · subst hb
        simp only [if_pos rfl] at h
        rcases ih h with h | ⟨h1, h2⟩
        · exact Or.inl h
        · exact Or.inr ⟨List.mem_cons_of_mem _ h1, h2⟩
      · simp only [hb, if_false] at h
        rcases List.mem_cons.mp h with h | h
        · exact Or.inl h
        · rcases ih h with h | ⟨h1, h2⟩
          · exact Or.inl h
          · exact Or.inr ⟨List.mem_cons_of_mem _ h1, h2⟩
    · rw [if_neg hw] at h
      rcases List.mem_cons.mp h with h | h
      · subst h
        exact Or.inr ⟨List.mem_cons_self _ _, by simpa using hw⟩
      · rcases ih h with h | ⟨h1, h2⟩
        · exact Or.inl h
        · exact Or.inr ⟨List.mem_cons_of_mem _ h1, h2⟩

theorem mem_trimWs {c : Nat} {l : List Nat} (h : c ∈ trimWs l) : c ∈ l := by
  unfold trimWs at h
  rw [List.mem_reverse] at h
  have h1 := (List.dropWhile_sublist jsWhitespace).subset h
  rw [List.mem_reverse] at h1
  exact (List.dropWhile_sublist jsWhitespace).subset h1

theorem mem_lowerNfkd {c : Nat} {s : List Nat} (h : c ∈ lowerNfkd s) :
    ∃ x ∈ s, c ∈ nfkdChar (jsToLower x) := by
  unfold lowerNfkd at h
  rw [List.mem_flatMap] at h
  obtain ⟨y, hy, hc⟩ := h
  rw [List.mem_map] at hy
  obtain ⟨x, hx, rfl⟩ := hy
  exact ⟨x, hx, hc⟩

/-- Every character of the normalized form is either a space or a
non-whitespace letter/number with no diacritic and no decomposition of its
own.  It can still be uppercase (from a compatibility decomposition). -/
theorem norm_mem {c : Nat} {s : List Nat} (h : c ∈ normalizeForSearch s) :
    c = 32 ∨ (letterOrNum c = true ∧ jsWhitespace c = false ∧
      combining c = false ∧ nfkdChar c = [c]) := by
  unfold normalizeForSearch at h
  have h1 := mem_wsAux (mem_trimWs h)
  rcases h1 with h1 | ⟨h1, hnw⟩
  · exact Or.inl h1
  · rcases mem_punctAux h1 with h2 | ⟨h2, hg⟩
    · subst h2; simp [jsWhitespace] at hnw
    · have hln : letterOrNum c = true := by
        rcases Bool.or_eq_true_iff.mp hg with h | h
        · exact h
        · rw [h] at hnw; exact absurd hnw (by simp)
      rw [stripMarks, List.mem_filter] at h2
      obtain ⟨h2, hcm⟩ := h2
      have hcm : combining c = false := by simpa using hcm
      obtain ⟨x, _, hx⟩ := mem_lowerNfkd h2
      exact Or.inr ⟨hln, hnw, hcm, nfkd_lower_stable hx hcm hln⟩

theorem headIsWs_eq_false_iff {l : List Nat} :
    headIsWs l = false ↔ ∀ y ∈ l.head?, jsWhitespace y = false := by
  cases l <;> simp [headIsWs]

theorem wsAux_true_head : ∀ l : List Nat, headIsWs (wsAux true l) = false := by
  intro l
  induction l with
  | nil => rfl
  | cons a rest ih =>
    rw [wsAux]
    by_cases hw : jsWhitespace a = true
    · rw [if_pos hw, if_pos rfl]; exact ih
    · rw [if_neg hw]
      simpa [headIsWs] using hw

theorem wsAux_chain : ∀ (l : List Nat) (b : Bool), List.Chain' noWsPair (wsAux b l) := by
  intro l
  induction l with
  | nil => intro b; simp [wsAux]
  | cons a rest ih =>
    intro b
    rw [wsAux]
    by_cases hw : jsWhitespace a = true
    · rw [if_pos hw]
      by_cases hb : b
      · subst hb; rw [if_pos rfl]; exact ih true
      · have hb' : b = false := by simpa using hb
        subst hb'
        rw [if_neg Bool.false_ne_true]
        rw [List.chain'_cons']
        refine ⟨?_, ih true⟩
        intro y hy
        have := (headIsWs_eq_false_iff).mp (wsAux_true_head rest) y hy
        exact fun hc => by rw [this] at hc; exact absurd hc.2 (by simp)
    · rw [if_neg hw]
      rw [List.chain'_cons']
      refine ⟨?_, ih false⟩
      intro y hy
      exact fun hc => by rw [hc.1] at hw; exact hw rfl

theorem headIsWs_dropWhile (l : List Nat) :
    headIsWs (List.dropWhile jsWhitespace l) = false := by
  induction l with
  | nil => rfl
  | cons a rest ih =>
    by_cases hw : jsWhitespace a = true
    · rw [List.dropWhile_cons_of_pos hw]; exact ih
    · rw [List.dropWhile_cons_of_neg (by simpa using hw)]
      simpa [headIsWs] using hw

theorem headIsWs_of_isPre {A B : List Nat} (h : A <+: B)
    (hB : headIsWs B = false) : headIsWs A = false := by
  obtain ⟨t, rfl⟩ := h
  cases A with
  | nil => rfl
  | cons a A' => simpa [headIsWs] using hB

/-- The trimmed form never starts with whitespace. -/
theorem headIsWs_trimWs (l : List Nat) : headIsWs (trimWs l) = false := by
  unfold trimWs
  have hsuf : List.dropWhile jsWhitespace (l.dropWhile jsWhitespace).reverse <:+
      (l.dropWhile jsWhitespace).reverse := List.dropWhile_suffix _
  have hpre := hsuf.reverse
  rw [List.reverse_reverse] at hpre
  exact headIsWs_of_isPre hpre (headIsWs_dropWhile l)

/-- The trimmed form never ends with whitespace. -/
theorem headIsWs_trimWs_reverse (l : List Nat) :
    headIsWs (trimWs l).reverse = false := by
  unfold trimWs
  rw [List.reverse_reverse]
  exact headIsWs_dropWhile _

theorem chain_trimWs {l : List Nat} (h : List.Chain' noWsPair l) :
    List.Chain' noWsPair (trimWs l) := by
  unfold trimWs
  rw [List.chain'_reverse]
  have h1 : List.Chain' noWsPair (l.dropWhile jsWhitespace) :=
    h.suffix (List.dropWhile_suffix _)
  have h2 : List.Chain' (flip noWsPair) (l.dropWhile jsWhitespace).reverse := by
    rw [List.chain'_reverse]
    exact h1.imp (fun a b hab => hab)
  exact h2.suffix (List.dropWhile_suffix _)

/-- The normalized form has no two adjacent whitespace characters. -/
theorem norm_chain (s : List Nat) :
    List.Chain' noWsPair (normalizeForSearch s) :=
  chain_trimWs (wsAux_chain _ false)

/-! ### Identity of the normalization stages on already-normalized input -/

theorem lowerNfkd_id {l : List Nat}
    (h : ∀ c ∈ l, jsToLower c = c ∧ nfkdChar c = [c]) : lowerNfkd l = l := by
  induction l with
  | nil => rfl
  | cons a rest ih =>
    have ha := h a (List.mem_cons_self _ _)
    unfold lowerNfkd
    rw [List.map_cons, List.flatMap_cons, ha.1, ha.2]
    have := ih (fun c hc => h c (List.mem_cons_of_mem _ hc))
    unfold lowerNfkd at this
    rw [this]
    rfl

theorem stripMarks_id {l : List Nat} (h : ∀ c ∈ l, combining c = false) :
    stripMarks l = l := by
  unfold stripMarks
  rw [List.filter_eq_self]
  intro a ha
  simp [h a ha]

theorem punctAux_id {l : List Nat}
    (h : ∀ c ∈ l, (letterOrNum c || jsWhitespace c) = true) :
    ∀ b, punctAux b l = l := by
  induction l with
  | nil => intro b; rfl
  | cons a rest ih =>
    intro b
    rw [punctAux, if_pos (h a (List.mem_cons_self _ _))]
    rw [ih (fun c hc => h c (List.mem_cons_of_mem _ hc)) false]

theorem wsAux_id : ∀ (l : List Nat) (b : Bool),
    List.Chain' noWsPair l → (∀ c ∈ l, jsWhitespace c = true → c = 32) →
    (b = true → headIsWs l = false) → wsAux b l = l := by
  intro l
  induction l with
  | nil => intro b _ _ _; rfl
  | cons a rest ih =>
    intro b hchain hws hb
    rw [wsAux]
    by_cases hwa : jsWhitespace a = true
    · have hb' : b = false := by
        by_contra hbb
        have : b = true := by simpa using hbb
        have := hb this
        simp [headIsWs, hwa] at this
      subst hb'
      rw [if_pos hwa, if_neg Bool.false_ne_true]
      have ha32 : a = 32 := hws a (List.mem_cons_self _ _) hwa
      subst ha32
      congr 1
      apply ih true (List.chain'_cons'.mp hchain).2
        (fun c hc => hws c (List.mem_cons_of_mem _ hc))
      intro _
      rw [headIsWs_eq_false_iff]
      intro y hy
      have := (List.chain'_cons'.mp hchain).1 y hy
      by_contra hyy
      exact this ⟨hwa, by simpa using hyy⟩
    · rw [if_neg hwa]
      congr 1
      apply ih false (List.chain'_cons'.mp hchain).2
        (fun c hc => hws c (List.mem_cons_of_mem _ hc))
      intro hc
      exact absurd hc (by simp)

theorem dropWhile_of_headFalse {l : List Nat} (h : headIsWs l = false) :
    List.dropWhile jsWhitespace l = l := by
  cases l with
  | nil => rfl
  | cons a rest =>
    rw [List.dropWhile_cons_of_neg]
    simpa [headIsWs] using h

theorem trimWs_id {l : List Nat} (h1 : headIsWs l = false)
    (h2 : headIsWs l.reverse = false) : trimWs l = l := by
  unfold trimWs
  rw [dropWhile_of_headFalse h1, dropWhile_of_headFalse h2, List.reverse_reverse]

/-- Claim C5, amended: `normalizeForSearch` is idempotent on every string
whose normalized form contains no character altered by lowercasing (no
uppercase letter).  It is not idempotent in general: NFKD runs after
`toLowerCase` and compatibility decompositions can reintroduce uppercase. -/
theorem normalizeForSearch_idem (s : List Nat)
    (h : ∀ c ∈ normalizeForSearch s, jsToLower c = c) :
    normalizeForSearch (normalizeForSearch s) = normalizeForSearch s := by
  have hmem := fun c (hc : c ∈ normalizeForSearch s) => norm_mem hc
  conv_lhs => rw [normalizeForSearch]
  rw [lowerNfkd_id (fun c hc => ⟨h c hc, by
    rcases norm_mem hc with hcc | ⟨_, _, _, hnf⟩
    · subst hcc; decide
    · exact hnf⟩)]
  rw [stripMarks_id (fun c hc => by
    rcases norm_mem hc with hcc | ⟨_, _, hcm, _⟩
    · subst hcc; decide
    · exact hcm)]
  rw [punctToSpace, punctAux_id ?_ false]
  · rw [collapseWs, wsAux_id _ false (norm_chain s) ?_ (by simp)]
    · exact trimWs_id (headIsWs_trimWs _) (headIsWs_trimWs_reverse _)
    · intro c hc hw
      rcases hmem c hc with hcc | ⟨_, hnw, _, _⟩
      · exact hcc
      · rw [hw] at hnw; exact absurd hnw (by simp)
  · intro c hc
    rcases hmem c hc with hcc | ⟨hl, _, _, _⟩
    · subst hcc; decide
    · simp [hl]

/-- Counterexample to claim C5 as stated: `normalizeForSearch` is not
idempotent.  U+2102 (ℂ) has no lowercase mapping, so `toLowerCase` leaves
it, and the NFKD step — applied after lowercasing — compatibility-decomposes
it to the uppercase letter `C`; a second normalization lowercases that to
`c`. -/
theorem normalizeForSearch_idem_cex :
    normalizeForSearch (normalizeForSearch (str "ℂ")) ≠
      normalizeForSearch (str "ℂ") ∧
    normalizeForSearch (str "ℂ") = str "C" ∧
    normalizeForSearch (normalizeForSearch (str "ℂ")) = str "c" := by decide

theorem normalizeForSearch_idem_witness :
    normalizeForSearch (normalizeForSearch (str "Café, Zürich!")) =
      normalizeForSearch (str "Café, Zürich!") :=
  normalizeForSearch_idem (str "Café, Zürich!") (by decide)

/-! ### Tokens (C6) and token-free queries (C8) -/

theorem mem_splitOnCAux {sep : Nat} :
    ∀ (l acc t : List Nat), t ∈ splitOnCAux sep acc l → ∀ c ∈ t,
      c ∈ acc ∨ (c ∈ l ∧ (c == sep) = false) := by
  intro l
  induction l with
  | nil =>
    intro acc t ht c hc
    simp [splitOnCAux] at ht
    subst ht
    exact Or.inl (List.mem_reverse.mp hc)
  | cons a rest ih =>
    intro acc t ht c hc
    rw [splitOnCAux] at ht
    by_cases ha : (a == sep) = true
    · rw [if_pos ha] at ht
      rcases List.mem_cons.mp ht with ht | ht
      · subst ht
        exact Or.inl (List.mem_reverse.mp hc)
      · rcases ih [] t ht c hc with h | ⟨h1, h2⟩
        · simp at h
        · exact Or.inr ⟨List.mem_cons_of_mem _ h1, h2⟩
    · rw [if_neg ha] at ht
      rcases ih (a :: acc) t ht c hc with h | ⟨h1, h2⟩
      · rcases List.mem_cons.mp h with h | h
        · subst h
          exact Or.inr ⟨List.mem_cons_self _ _, by simpa using ha⟩
        · exact Or.inl h
      · exact Or.inr ⟨List.mem_cons_of_mem _ h1, h2⟩

theorem mem_splitOnC {sep : Nat} {l t : List Nat} (ht : t ∈ splitOnC sep l) :
    ∀ c ∈ t, c ∈ l ∧ (c == sep) = false := by
  intro c hc
  rcases mem_splitOnCAux l [] t ht c hc with h | h
  · simp at h
  · exact h

/-- Claim C6, amended: every token is at least 2 characters long and
consists of letters/numbers only — no punctuation, no whitespace, no
combining diacritical mark, and no decomposable character.  Tokens CAN
contain uppercase letters: compatibility decompositions reintroduce them
after lowercasing. -/
theorem tokenize_tokens (s : List Nat) : ∀ t ∈ tokenize s,
    2 ≤ t.length ∧ ∀ c ∈ t,
      letterOrNum c = true ∧ combining c = false ∧ jsWhitespace c = false ∧
      nfkdChar c = [c] := by
  intro t ht
  rw [tokenize, List.mem_filter] at ht
  obtain ⟨ht, hlen⟩ := ht
  refine ⟨by simpa using hlen, ?_⟩
  intro c hc
  obtain ⟨hcn, hcs⟩ := mem_splitOnC ht c hc
  rcases norm_mem hcn with h | ⟨hl, hnw, hcm, hnf⟩
  · subst h; simp at hcs
  · exact ⟨hl, hcm, hnw, hnf⟩

/-- Counterexample to claim C6 as stated: a token can contain uppercase
letters.  `tokenize` of the string ℂℂx yields the single token `CCx`: each ℂ
survives `toLowerCase` and is then compatibility-decomposed by NFKD to the
uppercase ASCII letter `C` (code point 67). -/
theorem tokenize_tokens_cex :
    tokenize (str "ℂℂx") = [str "CCx"] ∧ 67 ∈ str "CCx" ∧
    isUpperAscii 67 = true := by decide

theorem wsAux_allws {s : List Nat} (h : ∀ c ∈ s, jsWhitespace c = true) :
    wsAux true s = [] ∧ wsAux false s = if s.isEmpty then [] else [32] := by
  induction s with
  | nil => exact ⟨rfl, rfl⟩
  | cons a rest ih =>
    have ha := h a (List.mem_cons_self _ _)
    have ih := ih (fun c hc => h c (List.mem_cons_of_mem _ hc))
    constructor
    · rw [wsAux, if_pos ha, if_pos rfl]
      exact ih.1
    · rw [wsAux, if_pos ha, if_neg Bool.false_ne_true, ih.1]
      rfl

theorem norm_ws_only {s : List Nat} (h : ∀ c ∈ s, jsWhitespace c = true) :
    normalizeForSearch s = [] := by
  rw [normalizeForSearch]
  rw [lowerNfkd_id (fun c hc => ⟨(ws_selfNorm (h c hc)).1, (ws_selfNorm (h c hc)).2.1⟩)]
  rw [stripMarks_id (fun c hc => (ws_selfNorm (h c hc)).2.2)]
  rw [punctToSpace, punctAux_id (fun c hc => by simp [h c hc]) false]
  rw [collapseWs, (wsAux_allws h).2]
  by_cases hs : s.isEmpty
  · rw [if_pos hs]; rfl
  · rw [if_neg hs]; decide

theorem tokenize_ws_only {s : List Nat} (h : ∀ c ∈ s, jsWhitespace c = true) :
    tokenize s = [] := by
  rw [tokenize, norm_ws_only h]
  rfl

/-- Claim C8: a query that tokenizes to nothing — in particular an empty or
whitespace-only query — makes `searchDocs` return the empty result list
without scoring and without error. -/
theorem searchDocs_empty_query (index : KnowledgeIndex) (query : List Nat)
    (topK : Nat)
    (h : tokenize query = [] ∨ ∀ c ∈ query, jsWhitespace c = true) :
    searchDocs index query topK = [] := by
  have ht : tokenize query = [] := by
    rcases h with h | h
    · exact h
    · exact tokenize_ws_only h
  rw [searchDocs, if_pos (by rw [ht]; rfl)]

/-! ### The stable descending sort (C2) -/

theorem insertDesc_perm (r : SearchResult) :
    ∀ l, (insertDesc r l).Perm (r :: l) := by
  intro l
  induction l with
  | nil => exact List.Perm.refl _
  | cons s rest ih =>
    rw [insertDesc]
    by_cases h : s.score ≤ r.score
    · rw [if_pos h]
    · rw [if_neg h]
      exact (ih.cons s).trans (List.Perm.swap r s rest)

theorem sortByScoreDesc_perm : ∀ l, (sortByScoreDesc l).Perm l := by
  intro l
  induction l with
  | nil => exact List.Perm.refl _
  | cons x xs ih =>
    have : sortByScoreDesc (x :: xs) = insertDesc x (sortByScoreDesc xs) := rfl
    rw [this]
    exact (insertDesc_perm x _).trans (ih.cons x)

theorem insertDesc_sorted (r : SearchResult) :
    ∀ {l}, List.Pairwise (fun a b => b.score ≤ a.score) l →
      List.Pairwise (fun a b => b.score ≤ a.score) (insertDesc r l) := by
  intro l
  induction l with
  | nil => intro _; simp [insertDesc]
  | cons s rest ih =>
    intro h
    rw [insertDesc]
    obtain ⟨hs, ht⟩ := List.pairwise_cons.mp h
    by_cases hc : s.score ≤ r.score
    · rw [if_pos hc]
      rw [List.pairwise_cons]
      refine ⟨?_, h⟩
      intro y hy
      rcases List.mem_cons.mp hy with hy | hy
      · subst hy; exact hc
      · exact le_trans (hs y hy) hc
    · rw [if_neg hc]
      rw [List.pairwise_cons]
      refine ⟨?_, ih ht⟩
      intro y hy
      have hy' := (insertDesc_perm r rest).mem_iff.mp hy
      rcases List.mem_cons.mp hy' with hy' | hy'
      · subst hy'; omega
      · exact hs y hy'

theorem sortByScoreDesc_sorted :
    ∀ l, List.Pairwise (fun a b => b.score ≤ a.score) (sortByScoreDesc l) := by
  intro l
  induction l with
  | nil => simp [sortByScoreDesc]
  | cons x xs ih => exact insertDesc_sorted x ih

theorem insertDesc_filter (sc : Nat) (r : SearchResult) :
    ∀ l, (insertDesc r l).filter (fun x => x.score == sc) =
      ((r :: l).filter (fun x => x.score == sc)) := by
  intro l
  induction l with
  | nil => rfl
  | cons s rest ih =>
    rw [insertDesc]
    by_cases hc : s.score ≤ r.score
    · rw [if_pos hc]
    · rw [if_neg hc]
      have hlt : r.score < s.score := Nat.lt_of_not_le hc
      by_cases hs : (s.score == sc) = true
      · have hr : (r.score == sc) = false := by
          have hsv : s.score = sc := by simpa using hs
          simp only [beq_eq_false_iff_ne, ne_eq]
          omega
        simp only [List.filter_cons, hs, hr, if_true, if_false, ih,
          Bool.false_eq_true]
      · have hs' : (s.score == sc) = false := by simpa using hs
        simp only [List.filter_cons, hs', if_false, ih, Bool.false_eq_true]

theorem sortByScoreDesc_filter (sc : Nat) :
    ∀ l, (sortByScoreDesc l).filter (fun x => x.score == sc) =
      l.filter (fun x => x.score == sc) := by
  intro l
  induction l with
  | nil => rfl
  | cons x xs ih =>
    have h1 : sortByScoreDesc (x :: xs) = insertDesc x (sortByScoreDesc xs) := rfl
    rw [h1, insertDesc_filter, List.filter_cons, List.filter_cons, ih]

theorem mem_scoredResults {index : KnowledgeIndex} {qTokens : List (List Nat)}
    {qNorm : List Nat} {r : SearchResult}
    (h : r ∈ scoredResults index qTokens qNorm) :
    ∃ c ∈ index.chunks, r.chunkId = c.chunkId ∧ r.title = c.title ∧
      r.sourceFile = c.sourceFile ∧ r.text = c.text ∧
      r.score = chunkScore qTokens qNorm c ∧ 0 < r.score := by
  rw [scoredResults, List.mem_filterMap] at h
  obtain ⟨c, hc, heq⟩ := h
  by_cases hpos : 0 < chunkScore qTokens qNorm c
  · rw [if_pos hpos] at heq
    cases heq
    exact ⟨c, hc, rfl, rfl, rfl, rfl, rfl, hpos⟩
  · rw [if_neg hpos] at heq
    cases heq

/-- Claim C2: the result sequence of `searchDocs` has length at most `topK`,
all scores are strictly positive, scores are non-increasing, and equal-score
results keep the relative order their chunks have in the index: for each
score value, the results with that score are an initial segment of the
scored results in index order. -/
theorem searchDocs_ranked (index : KnowledgeIndex) (query : List Nat)
    (topK : Nat) :
    (searchDocs index query topK).length ≤ topK ∧
    (∀ r ∈ searchDocs index query topK, 0 < r.score) ∧
    List.Pairwise (fun a b => b.score ≤ a.score) (searchDocs index query topK) ∧
    ∀ sc, (searchDocs index query topK).filter (fun r => r.score == sc) <+:
      (scoredResults index (tokenize query) (normalizeForSearch query)).filter
        (fun r => r.score == sc) := by
  by_cases hq : (tokenize query).length = 0
  · rw [searchDocs, if_pos hq]
    exact ⟨by simp, by simp, by simp, fun sc => List.nil_prefix⟩
  · rw [searchDocs, if_neg hq]
    refine ⟨List.length_take_le _ _, ?_, ?_, ?_⟩
    · intro r hr
      have h1 : r ∈ sortByScoreDesc (scoredResults index (tokenize query)
          (normalizeForSearch query)) := List.take_subset _ _ hr
      have h2 := (sortByScoreDesc_perm _).mem_iff.mp h1
      obtain ⟨c, _, _, _, _, _, _, hpos⟩ := mem_scoredResults h2
      exact hpos
    · exact (sortByScoreDesc_sorted _).sublist (List.take_sublist _ _)
    · intro sc
      have hpre := List.take_prefix topK (sortByScoreDesc (scoredResults index
        (tokenize query) (normalizeForSearch query)))
      have h1 := hpre.filter (fun r => r.score == sc)
      rw [sortByScoreDesc_filter] at h1
      exact h1

/-! ### The scoring formula (C1) -/

theorem foldl_add_count {α : Type} (p : α → Bool) (k : Nat) :
    ∀ (l : List α) (a : Nat),
      l.foldl (fun sc t => if p t then sc + k else sc) a = a + k * l.countP p := by
  intro l
  induction l with
  | nil => intro a; simp
  | cons x xs ih =>
    intro a
    rw [List.foldl_cons, List.countP_cons]
    by_cases hx : p x = true
    · rw [if_pos hx, ih, hx]
      simp [Nat.mul_add, Nat.mul_one]
      omega
    · have hx' : p x = false := by simpa using hx
      rw [hx', if_neg (by simp [hx'])]
      rw [ih]
      simp

/-- The score formula exactly as claim C1 words it: twice the cardinality of
the set intersection of the query's tokens with the chunk's tokens (each
distinct matching query token counted once), once the cardinality of the set
intersection with the title's tokens, plus 4 for a substring match. -/
def specScoreSet (qTokens : List (List Nat)) (qNorm : List Nat) (c : Chunk) : Nat :=
  2 * (qTokens.dedup.countP (fun t => c.tokens.contains t)) +
  1 * (qTokens.dedup.countP (fun t => (tokenize c.title).contains t)) +
  (if hasSub (normalizeForSearch c.text) qNorm then 4 else 0)

/-- The score formula with query-token multiplicity: every occurrence of a
query token found in the chunk's token set contributes 2, every occurrence
found in the title's token set contributes 1, plus 4 for a substring
match. -/
def specScoreMulti (qTokens : List (List Nat)) (qNorm : List Nat) (c : Chunk) : Nat :=
  2 * (qTokens.countP (fun t => c.tokens.contains t)) +
  (qTokens.countP (fun t => (tokenize c.title).contains t)) +
  (if hasSub (normalizeForSearch c.text) qNorm then 4 else 0)

/-- Claim C1, amended: the score `searchDocs` assigns to a chunk is
`overlap + titleBoost + substringBoost` where `overlap` counts 2 for every
occurrence of a query token (with multiplicity, not set cardinality) that
lies in the chunk's token set, `titleBoost` counts 1 per occurrence found in
the title's token set, and `substringBoost` is 4 for a normalized substring
match; every returned result carries that score for its chunk. -/
theorem searchDocs_score_formula :
    (∀ (qTokens : List (List Nat)) (qNorm : List Nat) (c : Chunk),
      chunkScore qTokens qNorm c = specScoreMulti qTokens qNorm c) ∧
    ∀ (index : KnowledgeIndex) (query : List Nat) (topK : Nat),
      ∀ r ∈ searchDocs index query topK, ∃ c ∈ index.chunks,
        r.chunkId = c.chunkId ∧ r.text = c.text ∧
        r.score = specScoreMulti (tokenize query) (normalizeForSearch query) c := by
  have hmain : ∀ (qTokens : List (List Nat)) (qNorm : List Nat) (c : Chunk),
      chunkScore qTokens qNorm c = specScoreMulti qTokens qNorm c := by
    intro qTokens qNorm c
    simp only [chunkScore, specScoreMulti]
    rw [foldl_add_count (fun t => c.tokens.contains t) 2 qTokens 0,
      foldl_add_count (fun t => (tokenize c.title).contains t) 1 qTokens]
    by_cases hsub : hasSub (normalizeForSearch c.text) qNorm = true
    · rw [if_pos hsub, if_pos hsub]; omega
    · have hsub' : hasSub (normalizeForSearch c.text) qNorm = false := by
        simpa using hsub
      rw [if_neg (by simp [hsub']), if_neg (by simp [hsub'])]
      omega
  refine ⟨hmain, ?_⟩
  intro index query topK r hr
  rw [searchDocs] at hr
  by_cases hq : (tokenize query).length = 0
  · rw [if_pos hq] at hr; simp at hr
  · rw [if_neg hq] at hr
    have h1 : r ∈ sortByScoreDesc (scoredResults index (tokenize query)
        (normalizeForSearch query)) := List.take_subset _ _ hr
    have h2 := (sortByScoreDesc_perm _).mem_iff.mp h1
    obtain ⟨c, hc, hid, _, _, htext, hscore, _⟩ := mem_scoredResults h2
    exact ⟨c, hc, hid, htext, by rw [hscore, hmain]⟩

/-! ### Concrete fixtures -/

/-- A stand-in for the truncated SHA-1 `stableId`: a constant 16-character
value, enough for single-document examples. -/
def hash0 : List (List Nat) → List Nat := fun _ => str "0123456789abcdef"

def priceDoc : List Nat := str "Prices" ++ 10 :: str "The price is low"

def priceOpts : ParseOptions := ⟨str "t", str "docs/a.txt", 1800⟩

def priceIndex : KnowledgeIndex := ⟨str "t", parseTxtToChunks hash0 priceDoc priceOpts⟩

/-- Counterexample to claim C1 as stated: on the single-chunk index built
from `priceDoc`, the query `"price price"` (the token `price` twice) is
scored 4 by `searchDocs` — each occurrence of the duplicated query token
contributes 2 — while the claim's set-intersection formula yields 2. -/
theorem searchDocs_score_formula_cex :
    (searchDocs priceIndex (str "price price") 3).map (fun r => r.score) = [4] ∧
    priceIndex.chunks.map (fun c => specScoreSet (tokenize (str "price price"))
      (normalizeForSearch (str "price price")) c) = [2] := by decide

/-! ### Chunk identity (C7, C10) -/

theorem parse_map_chunkId (hash : List (List Nat) → List Nat) (txt : List Nat)
    (opts : ParseOptions) :
    (parseTxtToChunks hash txt opts).map (fun c => c.chunkId) =
      (((docPassages txt opts.maxChunkChars).enum.filter
        (fun p => !(trimWs p.2).isEmpty)).map Prod.fst).map
        (fun i => hash [opts.tenantId, opts.sourceFile,
          docTitle txt opts.sourceFile] ++ 35 :: natDecimal i) := by
  unfold parseTxtToChunks
  rw [List.filter_map, List.map_map, List.map_map]
  rfl

theorem parse_idx_pairwise (txt : List Nat) (maxC : Nat) :
    List.Pairwise (· < ·) (((docPassages txt maxC).enum.filter
      (fun p => !(trimWs p.2).isEmpty)).map Prod.fst) := by
  have h1 : ((docPassages txt maxC).enum.filter
      (fun p => !(trimWs p.2).isEmpty)).map Prod.fst |>.Sublist
      ((docPassages txt maxC).enum.map Prod.fst) :=
    (List.filter_sublist _).map Prod.fst
  rw [List.enum_map_fst] at h1
  exact (List.pairwise_lt_range _).sublist h1

theorem parse_chunkIds_nodup (hash : List (List Nat) → List Nat)
    (txt : List Nat) (opts : ParseOptions) :
    ((parseTxtToChunks hash txt opts).map (fun c => c.chunkId)).Nodup := by
  rw [parse_map_chunkId]
  apply List.Nodup.map_on
  · intro x _ y _ hxy
    have h1 := List.append_cancel_left hxy
    have h2 : natDecimal x = natDecimal y := by
      injection h1
    exact natDecimal_inj h2
  · exact (parse_idx_pairwise txt opts.maxChunkChars).imp Nat.ne_of_lt

theorem parse_chunkId_shape {hash : List (List Nat) → List Nat} {txt : List Nat}
    {opts : ParseOptions} {c : Chunk} (hc : c ∈ parseTxtToChunks hash txt opts) :
    ∃ i, c.chunkId = hash [opts.tenantId, opts.sourceFile,
      docTitle txt opts.sourceFile] ++ 35 :: natDecimal i := by
  have h1 : c.chunkId ∈ (parseTxtToChunks hash txt opts).map (fun c => c.chunkId) :=
    List.mem_map_of_mem _ hc
  rw [parse_map_chunkId] at h1
  obtain ⟨i, _, hi⟩ := List.mem_map.mp h1
  exact ⟨i, hi.symm⟩

theorem parse_text_nonempty {hash : List (List Nat) → List Nat} {txt : List Nat}
    {opts : ParseOptions} {c : Chunk} (hc : c ∈ parseTxtToChunks hash txt opts) :
    c.text ≠ [] := by
  unfold parseTxtToChunks at hc
  rw [List.mem_filter] at hc
  have := hc.2
  simp only [Bool.not_eq_true'] at this
  exact List.isEmpty_eq_false.mp this

/-- The hash input triple for one directory entry of
`loadTenantTxtKnowledge`. -/
def fileTriple (tenantId folderPath : List Nat) (f : List Nat × List Nat) :
    List (List Nat) :=
  [tenantId, folderPath ++ 47 :: f.1, docTitle f.2 (folderPath ++ 47 :: f.1)]

/-- Claim C7: within one index built by `loadTenantTxtKnowledge`, under the
hypothesis that the truncated content hash has its fixed 16-character length
and is collision-free on the (tenantId, sourceFile, title) triples involved,
all chunkIds are pairwise distinct and every chunk's text is non-empty. -/
theorem loadTenant_unique_nonempty (hash : List (List Nat) → List Nat)
    (tenantId folderPath : List Nat) (files : List (List Nat × List Nat))
    (hlen : ∀ parts, (hash parts).length = 16)
    (hcoll : files.Pairwise (fun f g =>
      hash (fileTriple tenantId folderPath f) ≠
      hash (fileTriple tenantId folderPath g))) :
    ((loadTenantTxtKnowledge hash tenantId folderPath files).chunks.map
      (fun c => c.chunkId)).Nodup ∧
    ∀ c ∈ (loadTenantTxtKnowledge hash tenantId folderPath files).chunks,
      c.text ≠ [] := by
  constructor
  · unfold loadTenantTxtKnowledge
    rw [List.map_flatMap]
    rw [List.nodup_flatMap]
    constructor
    · intro f _
      exact parse_chunkIds_nodup hash f.2 _
    · have hkept : (files.filter (fun f =>
          List.isSuffixOf (str ".txt") (f.1.map jsToLower))).Pairwise (fun f g =>
            hash (fileTriple tenantId folderPath f) ≠
            hash (fileTriple tenantId folderPath g)) :=
        hcoll.sublist (List.filter_sublist files)
      refine hkept.imp ?_
      intro f g hfg
      intro x hxf hxg
      obtain ⟨cf, hcf, hxf'⟩ := List.mem_map.mp hxf
      obtain ⟨cg, hcg, hxg'⟩ := List.mem_map.mp hxg
      obtain ⟨i, hif⟩ := parse_chunkId_shape hcf
      obtain ⟨j, hjg⟩ := parse_chunkId_shape hcg
      rw [← hxf'] at hxg'
      rw [hif] at hxg'
      rw [hjg] at hxg'
      have hlens : (hash (fileTriple tenantId folderPath f)).length =
          (hash (fileTriple tenantId folderPath g)).length := by
        rw [hlen, hlen]
      exact hfg (List.append_inj hxg' (by rw [hlen, hlen])).1.symm
  · intro c hc
    unfold loadTenantTxtKnowledge at hc
    rw [List.mem_flatMap] at hc
    obtain ⟨f, _, hcf⟩ := hc
    exact parse_text_nonempty hcf

def gapDoc : List Nat := str "Title" ++ 10 :: str "|" ++ 10 :: str "a|b|c"

def gapOpts : ParseOptions := ⟨str "t", str "docs/p.txt", 1800⟩

/-- Claim C10: the zero-based passage index is assigned before empty-text
chunks are dropped, so the numeric suffixes of the produced chunkIds are
strictly increasing in output order but need not be consecutive or start at
0; `gapDoc`, whose first table row has only empty fields, yields a single
chunk whose chunkId ends in `#1`. -/
theorem chunkIds_strictly_increasing :
    (∀ (hash : List (List Nat) → List Nat) (txt : List Nat) (opts : ParseOptions),
      (parseTxtToChunks hash txt opts).map (fun c => c.chunkId) =
        (((docPassages txt opts.maxChunkChars).enum.filter
          (fun p => !(trimWs p.2).isEmpty)).map Prod.fst).map
          (fun i => hash [opts.tenantId, opts.sourceFile,
            docTitle txt opts.sourceFile] ++ 35 :: natDecimal i) ∧
      List.Pairwise (· < ·) (((docPassages txt opts.maxChunkChars).enum.filter
        (fun p => !(trimWs p.2).isEmpty)).map Prod.fst)) ∧
    (parseTxtToChunks hash0 gapDoc gapOpts).map (fun c => c.chunkId) =
      [str "0123456789abcdef#1"] := by
  refine ⟨?_, by decide⟩
  intro hash txt opts
  exact ⟨parse_map_chunkId hash txt opts, parse_idx_pairwise txt opts.maxChunkChars⟩

/-- Claim C9: `parseTxtToChunks` is total — it is a Lean function returning a
chunk list for every input; every produced chunk has non-empty text and
carries the document title, and when no non-blank line exists the title
defaults to the base filename. -/
theorem parse_total_defaults (hash : List (List Nat) → List Nat) (txt : List Nat)
    (opts : ParseOptions) :
    (∀ c ∈ parseTxtToChunks hash txt opts,
      c.text ≠ [] ∧ c.title = docTitle txt opts.sourceFile) ∧
    ((∀ l ∈ docLines txt, trimWs l = []) →
      docTitle txt opts.sourceFile = basename opts.sourceFile) := by
  constructor
  · intro c hc
    refine ⟨parse_text_nonempty hc, ?_⟩
    unfold parseTxtToChunks at hc
    rw [List.mem_filter] at hc
    obtain ⟨p, _, hp⟩ := List.mem_map.mp hc.1
    rw [← hp]
    rfl
  · intro h
    unfold docTitle
    have : (docLines txt).find? (fun l => !(trimWs l).isEmpty) = none := by
      rw [List.find?_eq_none]
      intro l hl
      simp [h l hl]
    rw [this]

/-! ### Length enforcement (C4) -/

/-- No internal sentence boundary: nowhere does `.`, `!` or `?` immediately
precede a whitespace character — the text is a single sentence for the
re-split heuristic. -/
def noSentenceBoundary (l : List Nat) : Prop :=
  List.Chain' (fun a b => ¬(isSentEnd a = true ∧ jsWhitespace b = true)) l

theorem trimWs_infixOf (l : List Nat) : trimWs l <:+: l := by
  have h1 : List.dropWhile jsWhitespace l <:+ l := List.dropWhile_suffix _
  have h2 : List.dropWhile jsWhitespace
      (List.dropWhile jsWhitespace l).reverse <:+
      (List.dropWhile jsWhitespace l).reverse := List.dropWhile_suffix _
  have h3 := h2.reverse
  rw [List.reverse_reverse] at h3
  have h4 := h3.isInfix
  have h5 := h1.isInfix
  exact h4.trans h5

theorem trimWs_length_le (l : List Nat) : (trimWs l).length ≤ l.length :=
  (trimWs_infixOf l).sublist.length_le

theorem noSentenceBoundary_trimWs {l : List Nat} (h : noSentenceBoundary l) :
    noSentenceBoundary (trimWs l) :=
  h.infix (trimWs_infixOf l)

theorem splitSentAux_chain :
    ∀ (rest acc : List Nat) (skip : Bool),
      noSentenceBoundary acc.reverse →
      (∀ a ∈ acc.head?, ¬(isSentEnd a = true ∧ headIsWs rest = true)) →
      ∀ q ∈ splitSentAux skip acc rest, noSentenceBoundary q := by
  intro rest
  induction rest with
  | nil =>
    intro acc skip hacc _ q hq
    simp only [splitSentAux, List.mem_singleton] at hq
    subst hq
    exact hacc
  | cons c rest' ih =>
    intro acc skip hacc hhead q hq
    rw [splitSentAux] at hq
    by_cases h1 : (skip && jsWhitespace c) = true
    · rw [if_pos h1] at hq
      refine ih acc true hacc ?_ q hq
      intro a ha
      have := hhead a ha
      intro hcon
      exact this ⟨hcon.1, by simp [headIsWs, Bool.and_eq_true] at h1 ⊢; exact h1.2⟩
    · rw [if_neg h1] at hq
      have hcons : noSentenceBoundary (c :: acc).reverse := by
        show List.Chain' _ (c :: acc).reverse
        rw [List.reverse_cons, List.chain'_append]
        refine ⟨hacc, List.chain'_singleton _, ?_⟩
        intro x hx y hy
        rw [List.getLast?_reverse] at hx
        simp only [List.head?_cons, Option.mem_def, Option.some.injEq] at hy
        subst hy
        have := hhead x hx
        intro hcon
        exact this ⟨hcon.1, by simpa [headIsWs] using hcon.2⟩
      by_cases h2 : (isSentEnd c && headIsWs rest') = true
      · rw [if_pos h2] at hq
        rcases List.mem_cons.mp hq with hq | hq
        · subst hq
          exact hcons
        · refine ih [] true (by simp [noSentenceBoundary]) ?_ q hq
          intro a ha
          simp at ha
      · rw [if_neg h2] at hq
        refine ih (c :: acc) false hcons ?_ q hq
        intro a ha
        simp only [List.head?_cons, Option.mem_def, Option.some.injEq] at ha
        subst ha
        intro hcon
        exact h2 (by simp [hcon.1, hcon.2])

theorem splitSentences_chain (p : List Nat) :
    ∀ q ∈ splitSentences p, noSentenceBoundary q := by
  intro q hq
  refine splitSentAux_chain p [] false ?_ ?_ q hq
  · simp [noSentenceBoundary]
  · intro a ha
    simp at ha

theorem trimWs_cons_space (s : List Nat) : trimWs (32 :: s) = trimWs s := by
  unfold trimWs
  rw [List.dropWhile_cons_of_pos (by decide)]

theorem chunkLoop_bound (maxC : Nat) :
    ∀ (ss : List (List Nat)) (buf : List Nat),
      (∀ s ∈ ss, noSentenceBoundary s) →
      ((trimWs buf).length ≤ maxC ∨ noSentenceBoundary buf) →
      ∀ q ∈ chunkLoop maxC ss buf,
        q.length ≤ maxC ∨ noSentenceBoundary q := by
  intro ss
  induction ss with
  | nil =>
    intro buf _ hbuf q hq
    rw [chunkLoop] at hq
    by_cases hb : buf.isEmpty
    · rw [if_pos hb] at hq; simp at hq
    · rw [if_neg hb] at hq
      simp only [List.mem_singleton] at hq
      subst hq
      rcases hbuf with h | h
      · exact Or.inl h
      · exact Or.inr (noSentenceBoundary_trimWs h)
  | cons s ss' ih =>
    intro buf hss hbuf q hq
    have hs := hss s (List.mem_cons_self _ _)
    have hss' := fun t ht => hss t (List.mem_cons_of_mem _ ht)
    rw [chunkLoop] at hq
    by_cases hc : (trimWs (buf ++ 32 :: s)).length ≤ maxC
    · rw [if_pos hc] at hq
      refine ih _ hss' ?_ q hq
      left
      by_cases hb : buf.isEmpty
      · rw [if_pos hb]
        have hb' : buf = [] := by simpa [List.isEmpty_iff] using hb
        rw [hb'] at hc
        rw [List.nil_append] at hc
        rw [trimWs_cons_space] at hc
        exact hc
      · rw [if_neg hb]
        exact hc
    · rw [if_neg hc] at hq
      rcases List.mem_append.mp hq with hq | hq
      · by_cases hb : buf.isEmpty
        · rw [if_pos hb] at hq; simp at hq
        · rw [if_neg hb] at hq
          simp only [List.mem_singleton] at hq
          subst hq
          rcases hbuf with h | h
          · exact Or.inl h
          · exact Or.inr (noSentenceBoundary_trimWs h)
      · exact ih s hss' (Or.inr hs) q hq

/-- Claim C4: every chunk's text fits in `maxChunkChars`, except a chunk
formed from a single sentence (no internal `.`, `!` or `?` followed by
whitespace) that alone exceeds the limit and is emitted unsplit. -/
theorem chunk_length_bound (hash : List (List Nat) → List Nat) (txt : List Nat)
    (opts : ParseOptions) :
    ∀ c ∈ parseTxtToChunks hash txt opts,
      c.text.length ≤ opts.maxChunkChars ∨ noSentenceBoundary c.text := by
  intro c hc
  unfold parseTxtToChunks at hc
  rw [List.mem_filter] at hc
  obtain ⟨p, hp, hpc⟩ := List.mem_map.mp hc.1
  obtain ⟨i, q⟩ := p
  have hq : q ∈ docPassages txt opts.maxChunkChars := by
    have := List.mem_enum hp
    rw [this.2]
    exact List.getElem_mem this.1
  have htext : c.text = trimWs q := by rw [← hpc]; rfl
  rw [htext]
  unfold docPassages enforceMax at hq
  rw [List.mem_flatMap] at hq
  obtain ⟨p0, _, hq0⟩ := hq
  by_cases hshort : p0.length ≤ opts.maxChunkChars
  · rw [if_pos hshort] at hq0
    simp only [List.mem_singleton] at hq0
    subst hq0
    exact Or.inl (le_trans (trimWs_length_le q) hshort)
  · rw [if_neg hshort] at hq0
    have := chunkLoop_bound opts.maxChunkChars (splitSentences p0) []
      (splitSentences_chain p0) (Or.inl (by simp [trimWs])) q hq0
    rcases this with h | h
    · exact Or.inl (le_trans (trimWs_length_le q) h)
    · exact Or.inr (noSentenceBoundary_trimWs h)

/-! ### Tabular documents (C3) -/

/-- A well-formed table row for claim C3: exactly three pipe-separated
columns, each non-empty after trimming, whose synthesized passage fits in
`maxChunkChars`. -/
def wellFormedRow (maxC : Nat) (row : List Nat) : Prop :=
  (splitOnC 124 row).length = 3 ∧ (∀ col ∈ splitOnC 124 row, trimWs col ≠ []) ∧
  (rowToPassage row).length ≤ maxC

instance (maxC : Nat) (row : List Nat) : Decidable (wellFormedRow maxC row) := by
  unfold wellFormedRow; infer_instance

theorem enforceMax_short {maxC : Nat} : ∀ {ps : List (List Nat)},
    (∀ p ∈ ps, p.length ≤ maxC) → enforceMax maxC ps = ps := by
  intro ps
  induction ps with
  | nil => intro _; rfl
  | cons p rest ih =>
    intro h
    unfold enforceMax
    rw [List.flatMap_cons, if_pos (h p (List.mem_cons_self _ _))]
    have := ih (fun t ht => h t (List.mem_cons_of_mem _ ht))
    unfold enforceMax at this
    rw [this]
    rfl

theorem headIsWs_cons (a : Nat) (l : List Nat) :
    headIsWs (a :: l) = jsWhitespace a := rfl

theorem joinSpace_single (p : List Nat) : joinSpace [p] = p := rfl

theorem joinSpace_cons₂ (p q : List Nat) (rest : List (List Nat)) :
    joinSpace (p :: q :: rest) = p ++ 32 :: joinSpace (q :: rest) := rfl

theorem rowToPassage_shape {row : List Nat} {maxC : Nat}
    (h : wellFormedRow maxC row) :
    ∃ ta tb tc : List Nat,
      rowToPassage row = str "Service:" ++ 32 :: ta ++ 46 :: 32 ::
        str "Price:" ++ 32 :: tb ++ 46 :: 32 :: str "Notes:" ++ 32 :: tc ++ [46] := by
  obtain ⟨hlen3, hcols, _⟩ := h
  obtain ⟨a, b, c0, habc⟩ := List.length_eq_three.mp hlen3
  have ha : (trimWs a).isEmpty = false := by
    rw [List.isEmpty_eq_false]
    exact hcols a (by rw [habc]; simp)
  have hb : (trimWs b).isEmpty = false := by
    rw [List.isEmpty_eq_false]
    exact hcols b (by rw [habc]; simp)
  have hc : (trimWs c0).isEmpty = false := by
    rw [List.isEmpty_eq_false]
    exact hcols c0 (by rw [habc]; simp)
  refine ⟨trimWs a, trimWs b, trimWs c0, ?_⟩
  unfold rowToPassage
  rw [habc]
  simp only [List.map_cons, List.map_nil, List.getD, List.get?_cons_zero,
    List.get?_cons_succ, Option.getD_some, ha, hb, hc, Bool.false_eq_true,
    if_false, List.singleton_append, List.cons_append, List.nil_append]
  rw [joinSpace_cons₂, joinSpace_cons₂, joinSpace_single]
  rw [show str "Service: " = str "Service:" ++ [32] from rfl,
    show str "Price: " = str "Price:" ++ [32] from rfl,
    show str "Notes: " = str "Notes:" ++ [32] from rfl,
    show str "." = [46] from rfl]
  simp [List.append_assoc]

theorem passage_props {row : List Nat} {maxC : Nat} (h : wellFormedRow maxC row) :
    trimWs (rowToPassage row) = rowToPassage row ∧ rowToPassage row ≠ [] ∧
    str "Service:" <:+: rowToPassage row ∧ str "Price:" <:+: rowToPassage row ∧
    str "Notes:" <:+: rowToPassage row := by
  obtain ⟨ta, tb, tc, hshape⟩ := rowToPassage_shape h
  rw [hshape]
  have hhead : headIsWs (str "Service:" ++ 32 :: ta ++ 46 :: 32 ::
      str "Price:" ++ 32 :: tb ++ 46 :: 32 :: str "Notes:" ++ 32 :: tc ++ [46]) = false := by
    rw [show str "Service:" = 83 :: str "ervice:" from rfl]
    simp only [List.cons_append, headIsWs_cons]
    decide
  have hconcat : str "Service:" ++ 32 :: ta ++ 46 :: 32 ::
      str "Price:" ++ 32 :: tb ++ 46 :: 32 :: str "Notes:" ++ 32 :: tc ++ [46] =
      (str "Service:" ++ 32 :: ta ++ 46 :: 32 ::
        str "Price:" ++ 32 :: tb ++ 46 :: 32 :: str "Notes:" ++ 32 :: tc) ++ [46] := by
    simp [List.append_assoc]
  have hlast : headIsWs (str "Service:" ++ 32 :: ta ++ 46 :: 32 ::
      str "Price:" ++ 32 :: tb ++ 46 :: 32 :: str "Notes:" ++ 32 :: tc ++ [46]).reverse = false := by
    rw [hconcat, List.reverse_append,
      show (([46] : List Nat)).reverse = [46] from rfl, List.singleton_append,
      headIsWs_cons]
    decide
  refine ⟨trimWs_id hhead hlast, by simp, ?_, ?_, ?_⟩
  · have hpre := List.prefix_append (str "Service:") (32 :: ta ++ 46 :: 32 ::
      str "Price:" ++ 32 :: tb ++ 46 :: 32 :: str "Notes:" ++ 32 :: tc ++ [46])
    exact hpre.isInfix
  · refine ⟨str "Service:" ++ 32 :: ta ++ [46, 32], 32 :: tb ++ 46 :: 32 ::
      str "Notes:" ++ 32 :: tc ++ [46], ?_⟩
    simp [List.append_assoc]
  · refine ⟨str "Service:" ++ 32 :: ta ++ 46 :: 32 ::
      str "Price:" ++ 32 :: tb ++ [46, 32], 32 :: tc ++ [46], ?_⟩
    simp [List.append_assoc]

/-- Claim C3: a document whose body contains a pipe line is processed
entirely as tabular, and with N well-formed rows it yields exactly N chunks,
each of whose text contains `Service:`, `Price:` and `Notes:`. -/
theorem tabular_chunks (hash : List (List Nat) → List Nat) (txt : List Nat)
    (opts : ParseOptions)
    (hpipe : hasPipeTable (docBody txt) = true)
    (hrows : ∀ row ∈ tableRows (docBody txt), wellFormedRow opts.maxChunkChars row) :
    (parseTxtToChunks hash txt opts).length = (tableRows (docBody txt)).length ∧
    ∀ c ∈ parseTxtToChunks hash txt opts,
      str "Service:" <:+: c.text ∧ str "Price:" <:+: c.text ∧
      str "Notes:" <:+: c.text := by
  have hpass : docPassages txt opts.maxChunkChars =
      (tableRows (docBody txt)).map rowToPassage := by
    unfold docPassages rawPassages
    rw [if_pos hpipe]
    apply enforceMax_short
    intro p hp
    obtain ⟨row, hrow, hpr⟩ := List.mem_map.mp hp
    rw [← hpr]
    exact (hrows row hrow).2.2
  have hpshape : ∀ p ∈ docPassages txt opts.maxChunkChars,
      trimWs p = p ∧ p ≠ [] ∧ str "Service:" <:+: p ∧ str "Price:" <:+: p ∧
      str "Notes:" <:+: p := by
    intro p hp
    rw [hpass] at hp
    obtain ⟨row, hrow, hpr⟩ := List.mem_map.mp hp
    rw [← hpr]
    exact passage_props (hrows row hrow)
  have hkeep : (parseTxtToChunks hash txt opts) =
      (docPassages txt opts.maxChunkChars).enum.map (fun p =>
        mkChunk opts.tenantId (opts.tenantId ++ 58 :: basename opts.sourceFile)
          (hash [opts.tenantId, opts.sourceFile, docTitle txt opts.sourceFile])
          (basename opts.sourceFile) (docTitle txt opts.sourceFile) p.1 p.2) := by
    unfold parseTxtToChunks
    rw [List.filter_eq_self]
    intro c hc
    obtain ⟨p, hp, hpc⟩ := List.mem_map.mp hc
    obtain ⟨i, q⟩ := p
    have hq : q ∈ docPassages txt opts.maxChunkChars := by
      have := List.mem_enum hp
      rw [this.2]
      exact List.getElem_mem this.1
    have htext : c.text = trimWs q := by rw [← hpc]; rfl
    rw [Bool.not_eq_true', List.isEmpty_eq_false, htext, (hpshape q hq).1]
    exact (hpshape q hq).2.1
  constructor
  · rw [hkeep, List.length_map, List.enum_length, hpass, List.length_map]
  · intro c hc
    rw [hkeep] at hc
    obtain ⟨p, hp, hpc⟩ := List.mem_map.mp hc
    obtain ⟨i, q⟩ := p
    have hq : q ∈ docPassages txt opts.maxChunkChars := by
      have := List.mem_enum hp
      rw [this.2]
      exact List.getElem_mem this.1
    have htext : c.text = trimWs q := by rw [← hpc]; rfl
    rw [htext, (hpshape q hq).1]
    exact ⟨(hpshape q hq).2.2.1, (hpshape q hq).2.2.2.1, (hpshape q hq).2.2.2.2⟩

/-! ### Witnesses -/

def emptyChunk : Chunk := ⟨[], [], [], [], [], [], []⟩

def emptyResult : SearchResult := ⟨[], [], [], [], 0⟩

def rW1 : SearchResult := (searchDocs priceIndex (str "price") 3).headD emptyResult

theorem searchDocs_score_formula_witness :
    chunkScore [str "price"] (str "price") emptyChunk =
      specScoreMulti [str "price"] (str "price") emptyChunk ∧
    ∃ c ∈ priceIndex.chunks, rW1.chunkId = c.chunkId ∧ rW1.text = c.text ∧
      rW1.score = specScoreMulti (tokenize (str "price"))
        (normalizeForSearch (str "price")) c :=
  ⟨searchDocs_score_formula.1 _ _ _,
   searchDocs_score_formula.2 priceIndex (str "price") 3 rW1 (by decide)⟩

def rW2 : SearchResult := (searchDocs priceIndex (str "low price") 2).headD emptyResult

theorem searchDocs_ranked_witness :
    (searchDocs priceIndex (str "low price") 2).length ≤ 2 ∧
    0 < rW2.score ∧
    ((searchDocs priceIndex (str "low price") 2).filter
        (fun r => r.score == rW2.score) <+:
      (scoredResults priceIndex (tokenize (str "low price"))
        (normalizeForSearch (str "low price"))).filter
        (fun r => r.score == rW2.score)) :=
  ⟨(searchDocs_ranked priceIndex (str "low price") 2).1,
   (searchDocs_ranked priceIndex (str "low price") 2).2.1 rW2 (by decide),
   (searchDocs_ranked priceIndex (str "low price") 2).2.2.2 rW2.score⟩

def tabDoc : List Nat := str "Autolife Price List" ++ 10 ::
  str "Oil change|$40|synthetic" ++ 10 :: str "Brake pads|$80|front only"

def tabOpts : ParseOptions := ⟨str "t", str "docs/pricing.txt", 1800⟩

theorem tabular_chunks_witness :
    (parseTxtToChunks hash0 tabDoc tabOpts).length =
      (tableRows (docBody tabDoc)).length ∧
    ∀ c ∈ parseTxtToChunks hash0 tabDoc tabOpts,
      str "Service:" <:+: c.text ∧ str "Price:" <:+: c.text ∧
      str "Notes:" <:+: c.text :=
  tabular_chunks hash0 tabDoc tabOpts (by decide) (by decide)

def longDoc : List Nat := str "T" ++ 10 ::
  str "One. Two few. Three! Supercalifragilistic expia"

def longOpts : ParseOptions := ⟨str "t", str "a.txt", 12⟩

def cW4 : Chunk := (parseTxtToChunks hash0 longDoc longOpts).getLastD emptyChunk

theorem chunk_length_bound_witness :
    cW4.text.length ≤ 12 ∨ noSentenceBoundary cW4.text :=
  chunk_length_bound hash0 longDoc longOpts cW4 (by decide)

theorem tokenize_tokens_witness :
    2 ≤ (str "cafe").length ∧ ∀ c ∈ str "cafe",
      letterOrNum c = true ∧ combining c = false ∧ jsWhitespace c = false ∧
      nfkdChar c = [c] :=
  tokenize_tokens (str "Café!") (str "cafe") (by decide)

def folderFiles : List (List Nat × List Nat) := [(str "a.txt", priceDoc)]

theorem loadTenant_unique_nonempty_witness :
    ((loadTenantTxtKnowledge hash0 (str "t") (str "docs") folderFiles).chunks.map
      (fun c => c.chunkId)).Nodup ∧
    ∀ c ∈ (loadTenantTxtKnowledge hash0 (str "t") (str "docs") folderFiles).chunks,
      c.text ≠ [] :=
  loadTenant_unique_nonempty hash0 (str "t") (str "docs") folderFiles
    (fun _ => rfl) (by simp [folderFiles])

theorem searchDocs_empty_query_witness :
    searchDocs priceIndex (str "   ") 3 = [] :=
  searchDocs_empty_query priceIndex (str "   ") 3 (Or.inr (by decide))

def blankDoc : List Nat := str "  " ++ 10 :: str " "

def blankOpts : ParseOptions := ⟨str "t", str "dir/notes.txt", 1800⟩

def cW9 : Chunk := (parseTxtToChunks hash0 priceDoc priceOpts).headD emptyChunk

theorem parse_total_defaults_witness :
    (cW9.text ≠ [] ∧ cW9.title = docTitle priceDoc (str "docs/a.txt")) ∧
    docTitle blankDoc (str "dir/notes.txt") = basename (str "dir/notes.txt") :=
  ⟨(parse_total_defaults hash0 priceDoc priceOpts).1 cW9 (by decide),
   (parse_total_defaults hash0 blankDoc blankOpts).2 (by decide)⟩
